import Mathlib

/-!
Verification of llmock (a mock LLM API server written in Go) against its
natural-language specification.  The Go code is shallowly embedded: Go
strings become `List Char` (byte-level scans are ASCII in all relevant
code paths), Go slices become `List`, Go ints become `Int` or `Nat` where
the value is provably nonnegative, Go's `rand` sources become explicit
oracle functions `Nat → Nat` / `Nat → ℚ`, and Go maps used as counters
become functions `Nat → Nat`.
-/

namespace Llmock

/-! ## Request log (admin.go: adminState.logRequest) -/

/-- Mirror of `requestEntry` (admin.go).  The Go `time.Time` timestamp is
embedded as an integer. -/
structure RequestEntry where
  timestamp : Int
  method : String
  path : String
  userMessage : String
  matchedRule : String
  response : String
deriving DecidableEq

/-- Mirror of `adminState.logRequest` (admin.go): append the entry, then if
the log holds more than 100 entries keep only the last 100
(`a.requestLog = a.requestLog[len(a.requestLog)-100:]`). -/
def logRequest (log : List RequestEntry) (entry : RequestEntry) : List RequestEntry :=
  let l := log ++ [entry]
  if 100 < l.length then l.drop (l.length - 100) else l

/-! ## Streaming tokenizer (stream.go: tokenize) -/

/-- Whitespace test used by Go's `strings.Fields` (unicode.IsSpace),
restricted to the ASCII space characters. -/
def goIsSpace (c : Char) : Bool :=
  c = ' ' || c = '\t' || c = '\n' || c = '\x0b' || c = '\x0c' || c = '\r'

/-- Worker for `fields`: scan the characters, accumulating the current
word (reversed) in `cur`, emitting it when whitespace is hit. -/
def fieldsAux : List Char → List Char → List (List Char)
  | [], cur => if cur = [] then [] else [cur.reverse]
  | c :: cs, cur =>
    if goIsSpace c then
      if cur = [] then fieldsAux cs [] else cur.reverse :: fieldsAux cs []
    else fieldsAux cs (c :: cur)

/-- Mirror of Go `strings.Fields`: split around runs of whitespace,
dropping empty fields. -/
def fields (s : List Char) : List (List Char) :=
  fieldsAux s []

/-- Mirror of Go `strings.Join(elems, sep)`. -/
def joinSep (sep : List Char) : List (List Char) → List Char
  | [] => []
  | [w] => w
  | w :: ws => w ++ sep ++ joinSep sep ws

/-- Worker for `chunkWords`, structurally recursive on a fuel argument so
that it evaluates by kernel reduction.  Each step consumes at least one
word, so fuel `ws.length` always suffices.  `rnd k` is the value the Go
code draws from `rand.IntN(3)` at step `k`; the Go loop takes
`n = min (rnd k + 1) remaining` words, which here is the head plus
`min (rnd k) ws.length` words of the tail. -/
def chunkWordsAux (rnd : Nat → Nat) : Nat → Nat → List (List Char) → List (List (List Char))
  | 0, _, _ => []
  | _ + 1, _, [] => []
  | fuel + 1, k, w :: ws =>
    (w :: ws.take (min (rnd k % 3) ws.length)) ::
      chunkWordsAux rnd fuel (k + 1) (ws.drop (min (rnd k % 3) ws.length))

/-- The chunk-assembly loop of `tokenize` (stream.go): group the word list
into chunks of 1-3 words, the sizes driven by the rng oracle. -/
def chunkWords (rnd : Nat → Nat) (k : Nat) (ws : List (List Char)) : List (List (List Char)) :=
  chunkWordsAux rnd ws.length k ws

/-- The final loop of `tokenize` (stream.go): add a leading space to all
chunks except the first. -/
def addLeadingSpaces : List (List Char) → List (List Char)
  | [] => []
  | c :: cs => c :: cs.map (fun s => ' ' :: s)

/-- Mirror of `tokenize` (stream.go): split text into whitespace-separated
words, group them into chunks of 1-3 words joined by single spaces, and
prefix every chunk after the first with a single space. -/
def tokenize (rnd : Nat → Nat) (text : List Char) : List (List Char) :=
  addLeadingSpaces ((chunkWords rnd 0 (fields text)).map (joinSep [' ']))

/-- The non-streaming handlers (openai/anthropic response writers) place
the responder text verbatim in the response content field
(`Content: responseText`). -/
def nonStreamContent (responseText : List Char) : List Char :=
  responseText

/-! ## Lemmas about the request log -/

theorem drop_drop_append {α : Type} (l m : List α) (d x : Nat) (hd : d ≤ l.length) :
    (l.drop d ++ m).drop x = (l ++ m).drop (d + x) := by
  rw [← List.drop_append_of_le_length hd, List.drop_drop]

theorem logRequest_eq_drop (log : List RequestEntry) (entry : RequestEntry) :
    logRequest log entry = (log ++ [entry]).drop ((log ++ [entry]).length - 100) := by
  simp only [logRequest]
  by_cases h : 100 < (log ++ [entry]).length
  · rw [if_pos h]
  · rw [if_neg h]
    have hz : (log ++ [entry]).length - 100 = 0 := by omega
    rw [hz, List.drop_zero]

set_option maxRecDepth 4000 in
theorem logRequest_foldl (es : List RequestEntry) :
    ∀ log : List RequestEntry, log.length ≤ 100 →
      es.foldl logRequest log = (log ++ es).drop ((log ++ es).length - 100) := by
  induction es with
  | nil =>
    intro log h
    have hz : (log ++ ([] : List RequestEntry)).length - 100 = 0 := by
      simp only [List.append_nil]; omega
    rw [List.foldl_nil, hz, List.drop_zero, List.append_nil]
  | cons e es ih =>
    intro log h
    have hlog1 : (logRequest log e).length = (log ++ [e]).length - ((log ++ [e]).length - 100) := by
      rw [logRequest_eq_drop, List.length_drop]
    have hb : (logRequest log e).length ≤ 100 := by
      rw [hlog1]; omega
    have step : (e :: es).foldl logRequest log = es.foldl logRequest (logRequest log e) := rfl
    rw [step, ih _ hb, logRequest_eq_drop]
    have key := drop_drop_append (log ++ [e]) es ((log ++ [e]).length - 100)
      (((log ++ [e]).drop ((log ++ [e]).length - 100) ++ es).length - 100)
      (Nat.sub_le _ _)
    rw [key]
    have hl : (log ++ [e]) ++ es = log ++ e :: es := by simp
    rw [hl]
    congr 1
    simp only [List.length_drop, List.length_append, List.length_cons, List.length_nil]
    omega

/-! ## Lemmas about the streaming tokenizer -/

theorem chunkWordsAux_flatten (rnd : Nat → Nat) :
    ∀ (fuel k : Nat) (ws : List (List Char)), ws.length ≤ fuel →
      (chunkWordsAux rnd fuel k ws).flatten = ws := by
  intro fuel
  induction fuel with
  | zero =>
    intro k ws h
    have hws : ws = [] := List.length_eq_zero.mp (Nat.le_zero.mp h)
    subst hws
    rfl
  | succ n ih =>
    intro k ws h
    match ws with
    | [] => rfl
    | w :: ws =>
      simp only [chunkWordsAux, List.flatten_cons]
      rw [ih (k + 1) _ (by simp only [List.length_drop]; simp only [List.length_cons] at h; omega)]
      rw [List.cons_append, List.take_append_drop]

theorem chunkWordsAux_ne_nil (rnd : Nat → Nat) :
    ∀ (fuel k : Nat) (ws : List (List Char)) (g : List (List Char)),
      g ∈ chunkWordsAux rnd fuel k ws → g ≠ [] := by
  intro fuel
  induction fuel with
  | zero =>
    intro k ws g hg
    simp [chunkWordsAux] at hg
  | succ n ih =>
    intro k ws g hg
    match ws with
    | [] => simp [chunkWordsAux] at hg
    | w :: ws =>
      simp only [chunkWordsAux, List.mem_cons] at hg
      rcases hg with h | h
      · subst h; simp
      · exact ih _ _ _ h

theorem joinSep_nil (sep : List Char) : joinSep sep [] = [] := rfl

theorem joinSep_single (sep w : List Char) : joinSep sep [w] = w := rfl

theorem joinSep_cons2 (sep w y : List Char) (ws : List (List Char)) :
    joinSep sep (w :: y :: ws) = w ++ sep ++ joinSep sep (y :: ws) := rfl

theorem joinSep_append (sep : List Char) :
    ∀ (xs ys : List (List Char)), xs ≠ [] → ys ≠ [] →
      joinSep sep (xs ++ ys) = joinSep sep xs ++ sep ++ joinSep sep ys := by
  intro xs
  induction xs with
  | nil => intro ys hx hy; exact absurd rfl hx
  | cons x xs ih =>
    intro ys hx hy
    match xs with
    | [] =>
      match ys, hy with
      | y :: ys2, _ =>
        simp only [List.singleton_append, joinSep_cons2, joinSep_single]
    | x2 :: xs2 =>
      rw [show (x :: x2 :: xs2) ++ ys = x :: x2 :: (xs2 ++ ys) from rfl, joinSep_cons2,
        show x2 :: (xs2 ++ ys) = (x2 :: xs2) ++ ys from rfl, ih ys (by simp) hy, joinSep_cons2]
      simp [List.append_assoc]

theorem addLeadingSpaces_flatten :
    ∀ gss : List (List (List Char)), (∀ g ∈ gss, g ≠ []) →
      (addLeadingSpaces (gss.map (joinSep [' ']))).flatten = joinSep [' '] gss.flatten := by
  intro gss
  induction gss with
  | nil => intro _; rfl
  | cons g gss ih =>
    intro hne
    match gss with
    | [] => simp [addLeadingSpaces]
    | g2 :: gss2 =>
      have hg : g ≠ [] := hne g (by simp)
      have hrest : ∀ g_ ∈ g2 :: gss2, g_ ≠ [] := fun g_ hmem => hne g_ (by simp [hmem])
      have hih := ih hrest
      simp only [List.map_cons, addLeadingSpaces, List.flatten_cons, List.cons_append] at hih ⊢
      rw [hih]
      have hflat2 : g2 ++ gss2.flatten ≠ [] := by
        have hg2 : g2 ≠ [] := hrest g2 (by simp)
        intro hcontra
        exact hg2 (List.append_eq_nil.mp hcontra).1
      rw [joinSep_append _ g _ hg hflat2]
      simp [List.append_assoc]

/-- C1 (amended): for every rng oracle and every response text, the chunk
texts emitted by the streaming tokenizer concatenate to the
whitespace-normalized response: its whitespace-separated words joined by
single spaces.  For a response that is already in that form this is the
response itself; in general it is not (see the counterexample). -/
theorem tokenize_flatten_normalized (rnd : Nat → Nat) (text : List Char) :
    (tokenize rnd text).flatten = joinSep [' '] (fields text) := by
  unfold tokenize chunkWords
  rw [addLeadingSpaces_flatten _ (fun g hg => chunkWordsAux_ne_nil rnd _ _ _ g hg)]
  rw [chunkWordsAux_flatten rnd _ _ _ (le_refl _)]

/-- C1 counterexample: for the response text containing a doubled space,
the streamed chunks concatenate to the single-spaced form, which differs
from the text the non-streaming path serves verbatim. -/
theorem tokenize_flatten_counterexample :
    (tokenize (fun _ => 0) ("a  b".data)).flatten ≠ nonStreamContent ("a  b".data) := by
  decide

/-- C4: starting from the empty log, after any sequence of `logRequest`
calls the log is exactly the most recent at most 100 entries, in order,
so its length never exceeds 100. -/
theorem requestLog_last100 (es : List RequestEntry) :
    (es.foldl logRequest []).length ≤ 100 ∧
      es.foldl logRequest [] = es.drop (es.length - 100) := by
  have h := logRequest_foldl es [] (by simp)
  simp only [List.nil_append] at h
  refine ⟨?_, h⟩
  rw [h, List.length_drop]
  omega

/-! ## Fault engine (fault.go) -/

/-- Mirror of `FaultType` (fault.go). -/
inductive FaultType where
  | error
  | delay
  | timeout
  | malformed
  | rateLimit
deriving DecidableEq

/-- Mirror of `Fault` (fault.go).  The float64 probability is embedded as a
rational; the comparisons the code performs on it are exact. -/
structure Fault where
  ftype : FaultType
  status : Int
  message : String
  errorType : String
  delayMS : Int
  probability : ℚ
  count : Int
deriving DecidableEq

/-- Mirror of `activeFault` (fault.go): a fault plus its remaining count
(0 means unlimited). -/
structure ActiveFault where
  fault : Fault
  remaining : Int
deriving DecidableEq

/-- Mirror of `newFaultState` (fault.go): each initial fault becomes active
with `remaining = f.Count`. -/
def newFaultState (initial : List Fault) : List ActiveFault :=
  initial.map (fun f => { fault := f, remaining := f.count })

/-- The decrement-and-remove step of `evaluate` (fault.go) for a firing
fault: `if f.remaining > 0 { f.remaining--; if f.remaining == 0 { remove } }`;
`rest` is the tail of the fault list after the firing fault. -/
def removeOrDecrement (f : ActiveFault) (rest : List ActiveFault) : List ActiveFault :=
  if 0 < f.remaining then
    if f.remaining - 1 = 0 then rest
    else { fault := f.fault, remaining := f.remaining - 1 } :: rest
  else f :: rest

/-- Mirror of `faultState.evaluate` (fault.go).  `draws k` is the value of
the k-th `rng.Float64()` call (drawn only when the effective probability is
below 1); the result is the fired fault (if any), the updated fault list,
and the next draw index.  The earlier, skipped faults are retained in front
of the updated tail, as the in-place slice surgery does. -/
def evaluate (draws : Nat → ℚ) : Nat → List ActiveFault → Option Fault × List ActiveFault × Nat
  | k, [] => (none, [], k)
  | k, f :: rest =>
    let prob := if f.fault.probability ≤ 0 then (1 : ℚ) else f.fault.probability
    if prob < 1 then
      if prob ≤ draws k then
        match evaluate draws (k + 1) rest with
        | (res, rest2, k2) => (res, f :: rest2, k2)
      else (some f.fault, removeOrDecrement f rest, k + 1)
    else (some f.fault, removeOrDecrement f rest, k)

/-- Iterate `evaluate` a given number of times, collecting the fired
faults of each call. -/
def runEvaluate (draws : Nat → ℚ) :
    Nat → Nat → List ActiveFault → List (Option Fault) × List ActiveFault × Nat
  | 0, k, fs => ([], fs, k)
  | m + 1, k, fs =>
    match evaluate draws k fs with
    | (res, fs2, k2) =>
      match runEvaluate draws m k2 fs2 with
      | (results, fs3, k3) => (res :: results, fs3, k3)

/-! ## Lemmas about the fault engine -/

theorem evaluate_det (draws : Nat → ℚ) (k : Nat) (f : ActiveFault) (rest : List ActiveFault)
    (hdet : ¬(0 < f.fault.probability ∧ f.fault.probability < 1)) :
    evaluate draws k (f :: rest) = (some f.fault, removeOrDecrement f rest, k) := by
  simp only [evaluate]
  have hnl : ¬((if f.fault.probability ≤ 0 then (1 : ℚ) else f.fault.probability) < 1) := by
    by_cases hp : f.fault.probability ≤ 0
    · rw [if_pos hp]; exact lt_irrefl 1
    · rw [if_neg hp]
      push_neg at hdet hp
      exact not_lt.mpr (hdet hp)
  rw [if_neg hnl]

theorem runEvaluate_nil (draws : Nat → ℚ) :
    ∀ (m k : Nat), runEvaluate draws m k [] = (List.replicate m none, [], k) := by
  intro m
  induction m with
  | zero => intro k; rfl
  | succ n ih =>
    intro k
    simp only [runEvaluate, evaluate, ih, List.replicate_succ]

theorem runEvaluate_countdown (draws : Nat → ℚ) (f : Fault)
    (hdet : ¬(0 < f.probability ∧ f.probability < 1)) :
    ∀ (n m k : Nat), 0 < n → n ≤ m →
      runEvaluate draws m k [{ fault := f, remaining := (n : Int) }] =
        (List.replicate n (some f) ++ List.replicate (m - n) none, [], k) := by
  intro n
  induction n with
  | zero => intro m k h; exact absurd h (lt_irrefl 0)
  | succ i ih =>
    intro m k hpos hm
    match m, hm with
    | mm + 1, _ =>
      simp only [runEvaluate]
      rw [evaluate_det draws k _ [] hdet]
      by_cases hi : i = 0
      · subst hi
        have hrd : removeOrDecrement { fault := f, remaining := ((1 : Nat) : Int) } [] = [] := by
          simp [removeOrDecrement]
        rw [hrd, runEvaluate_nil]
        simp
      · have h0 : (0 : Int) < ((i + 1 : Nat) : Int) := by positivity
        have h1 : ((i + 1 : Nat) : Int) - 1 = ((i : Nat) : Int) := by push_cast; ring
        have hne : ¬(((i + 1 : Nat) : Int) - 1 = 0) := by
          rw [h1]
          simpa using hi
        have hrd : removeOrDecrement { fault := f, remaining := ((i + 1 : Nat) : Int) } [] =
            [{ fault := f, remaining := ((i : Nat) : Int) }] := by
          simp only [removeOrDecrement]
          rw [if_pos h0, if_neg hne, h1]
        rw [hrd, ih mm k (by omega) (by omega)]
        have hrep : List.replicate (i + 1) (some f) = some f :: List.replicate i (some f) :=
          List.replicate_succ _ _
        rw [hrep]
        simp only [List.cons_append]
        have hsub : mm + 1 - (i + 1) = mm - i := by omega
        rw [hsub]

theorem runEvaluate_zero_count (draws : Nat → ℚ) (f : Fault)
    (hdet : ¬(0 < f.probability ∧ f.probability < 1)) :
    ∀ (m k : Nat),
      runEvaluate draws m k [{ fault := f, remaining := 0 }] =
        (List.replicate m (some f), [{ fault := f, remaining := 0 }], k) := by
  intro m
  induction m with
  | zero => intro k; rfl
  | succ i ih =>
    intro k
    simp only [runEvaluate]
    rw [evaluate_det draws k _ [] hdet]
    have hrd : removeOrDecrement { fault := f, remaining := 0 } [] =
        [{ fault := f, remaining := 0 }] := by
      simp [removeOrDecrement]
    rw [hrd, ih k]
    simp [List.replicate_succ]

/-- C3: a fault added with count N > 0 (and a probability that is not
strictly between 0 and 1, so that it fires whenever evaluated) fires on
exactly the first N evaluations of any sequence of at least N evaluations,
its remaining count decremented on each firing, and the fault list is
empty from the moment the count reaches 0; a fault added with count 0
fires on every evaluation and is never removed. -/
theorem fault_count_lifecycle :
    (∀ (draws : Nat → ℚ) (k m : Nat) (f : Fault) (N : Nat),
        ¬(0 < f.probability ∧ f.probability < 1) → 0 < N → f.count = (N : Int) → N ≤ m →
        runEvaluate draws m k (newFaultState [f]) =
          (List.replicate N (some f) ++ List.replicate (m - N) none, [], k)) ∧
      (∀ (draws : Nat → ℚ) (k m : Nat) (f : Fault),
        ¬(0 < f.probability ∧ f.probability < 1) → f.count = 0 →
        runEvaluate draws m k (newFaultState [f]) =
          (List.replicate m (some f), newFaultState [f], k)) := by
  constructor
  · intro draws k m f N hdet hN hcount hm
    have hstate : newFaultState [f] = [{ fault := f, remaining := (N : Int) }] := by
      simp [newFaultState, hcount]
    rw [hstate]
    exact runEvaluate_countdown draws f hdet N m k hN hm
  · intro draws k m f hdet hcount
    have hstate : newFaultState [f] = [{ fault := f, remaining := 0 }] := by
      simp [newFaultState, hcount]
    rw [hstate]
    exact runEvaluate_zero_count draws f hdet m k

/-- Concrete fault with count 2 used by the C3 witness. -/
def cFault : Fault :=
  { ftype := FaultType.error, status := 500, message := "boom",
    errorType := "server_error", delayMS := 0, probability := 1, count := 2 }

/-- Concrete fault with count 0 used by the C3 witness. -/
def cFault0 : Fault :=
  { cFault with count := 0 }

/-- Witness for C3: the count-2 fault fires on exactly the first two of
three evaluations and is removed; the count-0 fault fires on all three
and remains. -/
theorem fault_count_lifecycle_witness :
    runEvaluate (fun _ => 0) 3 0 (newFaultState [cFault]) =
        (List.replicate 2 (some cFault) ++ List.replicate 1 none, [], 0) ∧
      runEvaluate (fun _ => 0) 3 0 (newFaultState [cFault0]) =
        (List.replicate 3 (some cFault0), newFaultState [cFault0], 0) :=
  ⟨fault_count_lifecycle.1 (fun _ => 0) 0 3 cFault 2 (by decide) (by decide) (by decide)
      (by decide),
    fault_count_lifecycle.2 (fun _ => 0) 0 3 cFault0 (by decide) (by decide)⟩

/-! ## Template expansion (rules.go, toolcall.go) -/

/-- Index of the first occurrence of `pat` in `l`, mirror of Go
`strings.Index` (an empty pattern is found at 0). -/
def indexOfSub (pat : List Char) : List Char → Option Nat
  | [] => if pat.isPrefixOf ([] : List Char) then some 0 else none
  | c :: cs => if pat.isPrefixOf (c :: cs) then some 0 else (indexOfSub pat cs).map (· + 1)

/-- Mirror of Go `strings.Contains`. -/
def containsSub (pat : List Char) (l : List Char) : Bool :=
  (indexOfSub pat l).isSome

def parseDigitsAux : List Char → Nat → Option Nat
  | [], acc => some acc
  | c :: cs, acc =>
    if '0' ≤ c ∧ c ≤ '9' then parseDigitsAux cs (acc * 10 + (c.toNat - '0'.toNat))
    else none

/-- Model of Go `strconv.Atoi` on the short numeric strings used by the
markov placeholder: an optional sign followed by at least one digit
(overflow is not modelled). -/
def atoi : List Char → Option Int
  | [] => none
  | '+' :: cs => if cs = [] then none else (parseDigitsAux cs 0).map (fun n => (n : Int))
  | '-' :: cs => if cs = [] then none else (parseDigitsAux cs 0).map (fun n => -(n : Int))
  | l => (parseDigitsAux l 0).map (fun n => (n : Int))

/-- Worker for `expandMarkovPlaceholders` (rules.go), structurally
recursive on a fuel argument; every recursive call consumes at least one
character, so fuel `l.length` suffices.  `gen n` is the text
`markov.GenerateMarkov n` returns. -/
def expandMarkovAux (gen : Nat → String) : Nat → List Char → List Char
  | 0, l => l
  | _ + 1, [] => []
  | fuel + 1, c :: cs =>
    if ("\x7b\x7bmarkov\x7d\x7d".data).isPrefixOf (c :: cs) then
      (gen 100).data ++ expandMarkovAux gen fuel ((c :: cs).drop 10)
    else if ("\x7b\x7bmarkov:".data).isPrefixOf (c :: cs) then
      match indexOfSub ("\x7d\x7d".data) (c :: cs) with
      | some e =>
        match atoi (((c :: cs).drop 9).take (e - 9)) with
        | some n =>
          if 0 < n then (gen n.toNat).data ++ expandMarkovAux gen fuel ((c :: cs).drop (e + 2))
          else c :: expandMarkovAux gen fuel cs
        | none => c :: expandMarkovAux gen fuel cs
      | none => c :: expandMarkovAux gen fuel cs
    else c :: expandMarkovAux gen fuel cs

/-- Mirror of `expandMarkovPlaceholders` (rules.go). -/
def expandMarkovPlaceholders (gen : Nat → String) (template : List Char) : List Char :=
  expandMarkovAux gen template.length template

/-- The dollar-reference scan shared, byte for byte, by `expandTemplate`
(rules.go) and `expandToolArg` (toolcall.go): `$\x7binput\x7d` becomes the
full input, `$N` (N in 1..9 and within the capture groups) becomes group
N, anything else is copied through. -/
def expandDollarRefs (groups : List String) (input : List Char) : List Char → List Char
  | [] => []
  | '$' :: '\x7b' :: 'i' :: 'n' :: 'p' :: 'u' :: 't' :: '\x7d' :: rest =>
    input ++ expandDollarRefs groups input rest
  | '$' :: d :: rest =>
    if '1' ≤ d ∧ d ≤ '9' then
      if h : d.toNat - '0'.toNat < groups.length then
        (groups.get ⟨d.toNat - '0'.toNat, h⟩).data ++ expandDollarRefs groups input rest
      else '$' :: expandDollarRefs groups input (d :: rest)
    else '$' :: expandDollarRefs groups input (d :: rest)
  | c :: cs => c :: expandDollarRefs groups input cs

/-- Mirror of `expandTemplate` (rules.go): when a markov responder is
present and the template mentions a markov placeholder, expand the
placeholders first; then expand the dollar references. -/
def expandTemplate (template : String) (groups : List String) (input : String)
    (markov : Option (Nat → String)) : String :=
  match markov with
  | some gen =>
    if containsSub ("\x7b\x7bmarkov".data) template.data then
      String.mk (expandDollarRefs groups input.data (expandMarkovPlaceholders gen template.data))
    else String.mk (expandDollarRefs groups input.data template.data)
  | none => String.mk (expandDollarRefs groups input.data template.data)

/-- Mirror of `expandToolArg` (toolcall.go). -/
def expandToolArg (s : String) (groups : List String) (input : String) : String :=
  String.mk (expandDollarRefs groups input.data s.data)

/-! ## Tool calls and rules (toolcall.go, rules.go) -/

/-- A value in a tool-call argument template (Go `any`): the code
special-cases string values, expanding dollar references in them, and
passes every other value through unchanged, so non-string values are
embedded opaquely. -/
inductive ArgValue where
  | str : String → ArgValue
  | other : Nat → ArgValue
deriving DecidableEq

/-- Mirror of `ToolCallConfig` (toolcall.go); the Go map of arguments is
embedded as an association list. -/
structure ToolCallConfig where
  name : String
  arguments : List (String × ArgValue)
deriving DecidableEq

/-- Mirror of `ToolCall` (toolcall.go). -/
structure ToolCall where
  id : String
  name : String
  arguments : List (String × ArgValue)
deriving DecidableEq

/-- Mirror of `resolveToolCall` (toolcall.go); `tcid` is the randomly
generated call id (`generateToolCallID`), passed in as an oracle. -/
def resolveToolCall (tcid : String) (cfg : ToolCallConfig) (groups : List String)
    (input : String) : ToolCall :=
  { id := tcid
    name := cfg.name
    arguments := cfg.arguments.map (fun kv =>
      match kv with
      | (k, ArgValue.str s) => (k, ArgValue.str (expandToolArg s groups input))
      | (k, v) => (k, v)) }

/-- Mirror of `Response` (toolcall.go). -/
structure Response where
  text : String
  toolCalls : List ToolCall
deriving DecidableEq

/-- Mirror of `Rule` (rules.go).  The compiled regex is embedded as its
match function: `pattern input` stands for
`Pattern.FindStringSubmatch(input)`, `none` when there is no match,
otherwise the full match followed by the capture groups.  `maxCalls` is a
Go `*int`; the counter it is compared against only ever counts up from 0,
so the limit is embedded as a natural number. -/
structure Rule where
  pattern : String → Option (List String)
  responses : List String
  toolCall : Option ToolCallConfig
  maxCalls : Option Nat

/-- Oracle for the markov fallback responder of a `RuleResponder`:
`gen n` is the text `GenerateMarkov n` returns at this point and
`fallback` the result of `markov.Respond` on the current messages. -/
structure MarkovOracle where
  gen : Nat → String
  fallback : Except String Response

/-- The tool-call response `Respond` (rules.go) builds when a tool-call
rule fires: `Response{ToolCalls: []ToolCall{tc}}`. -/
def toolCallResponse (tcid : String) (tc : ToolCallConfig) (groups : List String)
    (input : String) : Response :=
  { text := "", toolCalls := [resolveToolCall tcid tc groups input] }

/-- The text response `Respond` (rules.go) builds from a matching rule:
`Response{Text: expandTemplate(rule.Responses[rand.IntN(len)], ...)}`,
with the uniform draw `rand.IntN(len)` embedded as `r % len`. -/
def textResponse (rule : Rule) (groups : List String) (input : String) (r : Nat)
    (markov : Option MarkovOracle) : Response :=
  { text := expandTemplate (rule.responses.getD (r % rule.responses.length) "") groups input
      (markov.map MarkovOracle.gen),
    toolCalls := [] }

/-- The counter increment `r.callCounts[i]++` of `Respond` (rules.go) as
a map update. -/
def bumpAt (counts : Nat → Nat) (i : Nat) : Nat → Nat :=
  fun j => if j = i then counts j + 1 else counts j

theorem bumpAt_self (counts : Nat → Nat) (i : Nat) : bumpAt counts i i = counts i + 1 := by
  simp [bumpAt]

/-- The rule-matching loop of `RuleResponder.Respond` (rules.go), from
rule index `i` on: the first matching rule wins; a matching rule with a
tool call and a not-yet-exhausted max-calls counter increments the
counter and returns the tool call; an exhausted one falls through to its
text responses when it has any and is skipped otherwise.  `r` is the
`rand.IntN` draw used for a text-response pick and `tcid` the generated
tool-call id.  Returns the response (`none` when no rule fired) and the
updated counter map. -/
def respondFrom (markov : Option MarkovOracle) (input : String) (r : Nat) (tcid : String)
    (counts : Nat → Nat) : Nat → List Rule → Option Response × (Nat → Nat)
  | _, [] => (none, counts)
  | i, rule :: rest =>
    match rule.pattern input with
    | none => respondFrom markov input r tcid counts (i + 1) rest
    | some groups =>
      match rule.toolCall with
      | some tc =>
        match rule.maxCalls with
        | some maxC =>
          if maxC ≤ counts i then
            if 0 < rule.responses.length then
              (some (textResponse rule groups input r markov), counts)
            else respondFrom markov input r tcid counts (i + 1) rest
          else (some (toolCallResponse tcid tc groups input), bumpAt counts i)
        | none => (some (toolCallResponse tcid tc groups input), counts)
      | none => (some (textResponse rule groups input r markov), counts)

/-- The tail of `RuleResponder.Respond` (rules.go): when no rule fired,
delegate to the markov responder when present, otherwise return the
canned reply. -/
def fallbackWrap (markov : Option MarkovOracle) : Option Response → Except String Response
  | some resp => Except.ok resp
  | none =>
    match markov with
    | some mo => mo.fallback
    | none =>
      Except.ok { text := "That\x27s an interesting point. Could you tell me more?",
                  toolCalls := [] }

/-- Mirror of one `RuleResponder.Respond` call (rules.go); `input` is
`extractInput(messages)`, whose emptiness signals the no-messages
error. -/
def ruleRespond (rules : List Rule) (markov : Option MarkovOracle) (counts : Nat → Nat)
    (input : String) (r : Nat) (tcid : String) : Except String Response × (Nat → Nat) :=
  if input = "" then (Except.error "no messages provided", counts)
  else
    match respondFrom markov input r tcid counts 0 rules with
    | (res, counts2) => (fallbackWrap markov res, counts2)

/-- One `Respond` call of a call sequence: the extracted input, the
`rand.IntN` draw and the generated tool-call id for that call. -/
structure Call where
  input : String
  r : Nat
  tcid : String

/-- Run a sequence of `Respond` calls against one responder, collecting
the outputs and threading the counter map through. -/
def runCalls (rules : List Rule) (markov : Option MarkovOracle) (counts : Nat → Nat) :
    List Call → List (Except String Response) × (Nat → Nat)
  | [] => ([], counts)
  | c :: cs =>
    match ruleRespond rules markov counts c.input c.r c.tcid with
    | (out, counts2) =>
      match runCalls rules markov counts2 cs with
      | (outs, counts3) => (out :: outs, counts3)

/-! ## Lemmas about the rule responder -/

theorem respondFrom_append_none (markov : Option MarkovOracle) (input : String) (r : Nat)
    (tcid : String) (counts : Nat → Nat) :
    ∀ (pre rest : List Rule) (i : Nat), (∀ p ∈ pre, p.pattern input = none) →
      respondFrom markov input r tcid counts i (pre ++ rest) =
        respondFrom markov input r tcid counts (i + pre.length) rest := by
  intro pre
  induction pre with
  | nil => intro rest i h; simp
  | cons p pre ih =>
    intro rest i h
    have hp : p.pattern input = none := h p (by simp)
    have hrec := ih rest (i + 1) (fun q hq => h q (by simp [hq]))
    simp only [List.cons_append, respondFrom, hp, List.append_eq]
    rw [hrec]
    have hidx : i + 1 + pre.length = i + (p :: pre).length := by
      rw [List.length_cons]; omega
    rw [hidx]

theorem respondFrom_counts_eq_of_lt (markov : Option MarkovOracle) (input : String) (r : Nat)
    (tcid : String) :
    ∀ (rules : List Rule) (i : Nat) (counts : Nat → Nat) (j : Nat), j < i →
      (respondFrom markov input r tcid counts i rules).2 j = counts j := by
  intro rules
  induction rules with
  | nil => intro i counts j hj; rfl
  | cons rule rest ih =>
    intro i counts j hj
    cases hp : rule.pattern input with
    | none =>
      simp only [respondFrom, hp]
      exact ih (i + 1) counts j (by omega)
    | some gs =>
      cases htc : rule.toolCall with
      | none => simp only [respondFrom, hp, htc]
      | some tc =>
        cases hmax : rule.maxCalls with
        | none => simp only [respondFrom, hp, htc, hmax]
        | some maxC =>
          simp only [respondFrom, hp, htc, hmax]
          by_cases hge : maxC ≤ counts i
          · rw [if_pos hge]
            by_cases hresp : 0 < rule.responses.length
            · rw [if_pos hresp]
            · rw [if_neg hresp]
              exact ih (i + 1) counts j (by omega)
          · rw [if_neg hge]
            show bumpAt counts i j = counts j
            simp only [bumpAt]
            rw [if_neg (by omega)]

theorem respondFrom_cons_fire (markov : Option MarkovOracle) (input : String) (r : Nat)
    (tcid : String) (counts : Nat → Nat) (i : Nat) (rule : Rule) (rest : List Rule)
    (gs : List String) (tc : ToolCallConfig) (maxC : Nat)
    (hp : rule.pattern input = some gs) (htc : rule.toolCall = some tc)
    (hmax : rule.maxCalls = some maxC) (hlt : counts i < maxC) :
    respondFrom markov input r tcid counts i (rule :: rest) =
      (some (toolCallResponse tcid tc gs input), bumpAt counts i) := by
  simp only [respondFrom, hp, htc, hmax]
  rw [if_neg (by omega)]

theorem respondFrom_cons_text (markov : Option MarkovOracle) (input : String) (r : Nat)
    (tcid : String) (counts : Nat → Nat) (i : Nat) (rule : Rule) (rest : List Rule)
    (gs : List String) (tc : ToolCallConfig) (maxC : Nat)
    (hp : rule.pattern input = some gs) (htc : rule.toolCall = some tc)
    (hmax : rule.maxCalls = some maxC) (hge : maxC ≤ counts i)
    (hresp : 0 < rule.responses.length) :
    respondFrom markov input r tcid counts i (rule :: rest) =
      (some (textResponse rule gs input r markov), counts) := by
  simp only [respondFrom, hp, htc, hmax]
  rw [if_pos hge, if_pos hresp]

theorem respondFrom_cons_skip (markov : Option MarkovOracle) (input : String) (r : Nat)
    (tcid : String) (counts : Nat → Nat) (i : Nat) (rule : Rule) (rest : List Rule)
    (gs : List String) (tc : ToolCallConfig) (maxC : Nat)
    (hp : rule.pattern input = some gs) (htc : rule.toolCall = some tc)
    (hmax : rule.maxCalls = some maxC) (hge : maxC ≤ counts i)
    (hresp : rule.responses = []) :
    respondFrom markov input r tcid counts i (rule :: rest) =
      respondFrom markov input r tcid counts (i + 1) rest := by
  simp only [respondFrom, hp, htc, hmax]
  rw [if_pos hge, if_neg (by simp [hresp])]

theorem ruleRespond_at_fire (markov : Option MarkovOracle) (pre suf : List Rule) (rule : Rule)
    (counts : Nat → Nat) (input : String) (r : Nat) (tcid : String) (gs : List String)
    (tc : ToolCallConfig) (N : Nat)
    (hin : input ≠ "") (hpre : ∀ p ∈ pre, p.pattern input = none)
    (hp : rule.pattern input = some gs) (htc : rule.toolCall = some tc)
    (hmax : rule.maxCalls = some N) (hlt : counts pre.length < N) :
    ruleRespond (pre ++ rule :: suf) markov counts input r tcid =
      (Except.ok (toolCallResponse tcid tc gs input), bumpAt counts pre.length) := by
  unfold ruleRespond
  rw [if_neg hin,
    respondFrom_append_none markov input r tcid counts pre (rule :: suf) 0 hpre,
    Nat.zero_add,
    respondFrom_cons_fire markov input r tcid counts pre.length rule suf gs tc N hp htc hmax hlt]
  rfl

theorem ruleRespond_at_text (markov : Option MarkovOracle) (pre suf : List Rule) (rule : Rule)
    (counts : Nat → Nat) (input : String) (r : Nat) (tcid : String) (gs : List String)
    (tc : ToolCallConfig) (N : Nat)
    (hin : input ≠ "") (hpre : ∀ p ∈ pre, p.pattern input = none)
    (hp : rule.pattern input = some gs) (htc : rule.toolCall = some tc)
    (hmax : rule.maxCalls = some N) (hge : N ≤ counts pre.length)
    (hresp : 0 < rule.responses.length) :
    ruleRespond (pre ++ rule :: suf) markov counts input r tcid =
      (Except.ok (textResponse rule gs input r markov), counts) := by
  unfold ruleRespond
  rw [if_neg hin,
    respondFrom_append_none markov input r tcid counts pre (rule :: suf) 0 hpre,
    Nat.zero_add,
    respondFrom_cons_text markov input r tcid counts pre.length rule suf gs tc N hp htc hmax
      hge hresp]
  rfl

theorem ruleRespond_at_skip (markov : Option MarkovOracle) (pre suf : List Rule) (rule : Rule)
    (counts : Nat → Nat) (input : String) (r : Nat) (tcid : String) (gs : List String)
    (tc : ToolCallConfig) (N : Nat)
    (hin : input ≠ "") (hpre : ∀ p ∈ pre, p.pattern input = none)
    (hp : rule.pattern input = some gs) (htc : rule.toolCall = some tc)
    (hmax : rule.maxCalls = some N) (hge : N ≤ counts pre.length)
    (hresp : rule.responses = []) :
    ruleRespond (pre ++ rule :: suf) markov counts input r tcid =
      (fallbackWrap markov
          (respondFrom markov input r tcid counts (pre.length + 1) suf).1,
        (respondFrom markov input r tcid counts (pre.length + 1) suf).2) := by
  unfold ruleRespond
  rw [if_neg hin,
    respondFrom_append_none markov input r tcid counts pre (rule :: suf) 0 hpre,
    Nat.zero_add,
    respondFrom_cons_skip markov input r tcid counts pre.length rule suf gs tc N hp htc hmax
      hge hresp]

theorem runCalls_nil (rules : List Rule) (markov : Option MarkovOracle) (counts : Nat → Nat) :
    runCalls rules markov counts [] = ([], counts) := rfl

theorem runCalls_cons (rules : List Rule) (markov : Option MarkovOracle) (counts : Nat → Nat)
    (c : Call) (cs : List Call) :
    runCalls rules markov counts (c :: cs) =
      ((ruleRespond rules markov counts c.input c.r c.tcid).1 ::
          (runCalls rules markov (ruleRespond rules markov counts c.input c.r c.tcid).2 cs).1,
        (runCalls rules markov (ruleRespond rules markov counts c.input c.r c.tcid).2 cs).2) :=
  rfl

theorem runCalls_spec (markov : Option MarkovOracle) (pre suf : List Rule) (rule : Rule)
    (tc : ToolCallConfig) (N : Nat) (htc : rule.toolCall = some tc)
    (hmax : rule.maxCalls = some N) :
    ∀ (calls : List Call) (counts : Nat → Nat), counts pre.length ≤ N →
      (∀ c ∈ calls, c.input ≠ "" ∧ (rule.pattern c.input).isSome = true ∧
        ∀ p ∈ pre, p.pattern c.input = none) →
      ∀ (k : Nat) (hk : k < calls.length) (gs : List String),
        rule.pattern (calls.get ⟨k, hk⟩).input = some gs →
        ((counts pre.length + k < N →
          (runCalls (pre ++ rule :: suf) markov counts calls).1[k]? =
            some (Except.ok (toolCallResponse (calls.get ⟨k, hk⟩).tcid tc gs
              (calls.get ⟨k, hk⟩).input))) ∧
          (N ≤ counts pre.length + k → 0 < rule.responses.length →
            (runCalls (pre ++ rule :: suf) markov counts calls).1[k]? =
              some (Except.ok (textResponse rule gs (calls.get ⟨k, hk⟩).input
                (calls.get ⟨k, hk⟩).r markov))) ∧
          (N ≤ counts pre.length + k → rule.responses = [] →
            (runCalls (pre ++ rule :: suf) markov counts calls).1[k]? =
              some (fallbackWrap markov
                (respondFrom markov (calls.get ⟨k, hk⟩).input (calls.get ⟨k, hk⟩).r
                  (calls.get ⟨k, hk⟩).tcid
                  (runCalls (pre ++ rule :: suf) markov counts (calls.take k)).2
                  (pre.length + 1) suf).1))) := by
  intro calls
  induction calls with
  | nil =>
    intro counts hle hall k hk
    exact absurd hk (by simp)
  | cons c cs ih =>
    intro counts hle hall k hk gs hgs
    obtain ⟨hin, hsome, hpre⟩ := hall c (by simp)
    have hall2 : ∀ c_ ∈ cs, c_.input ≠ "" ∧ (rule.pattern c_.input).isSome = true ∧
        ∀ p ∈ pre, p.pattern c_.input = none := fun c_ hc_ => hall c_ (by simp [hc_])
    by_cases hfire : counts pre.length < N
    · -- the current call fires the tool call and bumps the counter
      cases k with
      | zero =>
        have hgc : rule.pattern c.input = some gs := hgs
        have hstep := ruleRespond_at_fire markov pre suf rule counts c.input c.r c.tcid gs tc N
          hin hpre hgc htc hmax hfire
        refine ⟨fun h1 => ?_, fun h1 h2 => ?_, fun h1 h2 => ?_⟩
        · rw [runCalls_cons, hstep]
          simp only [List.getElem?_cons_zero]
          rfl
        · omega
        · omega
      | succ k =>
        obtain ⟨g0, hg0⟩ := Option.isSome_iff_exists.mp hsome
        have hstep := ruleRespond_at_fire markov pre suf rule counts c.input c.r c.tcid g0 tc N
          hin hpre hg0 htc hmax hfire
        have hle2 : bumpAt counts pre.length pre.length ≤ N := by
          rw [bumpAt_self]
          omega
        have hk2 : k < cs.length := by simpa using hk
        have hgs2 : rule.pattern (cs.get ⟨k, hk2⟩).input = some gs := hgs
        have hres := ih (bumpAt counts pre.length) hle2 hall2 k hk2 gs hgs2
        simp only [bumpAt_self] at hres
        refine ⟨fun h1 => ?_, fun h1 h2 => ?_, fun h1 h2 => ?_⟩
        · have hout := hres.1 (by omega)
          rw [runCalls_cons, hstep, List.getElem?_cons_succ]
          exact hout
        · have hout := hres.2.1 (by omega) h2
          rw [runCalls_cons, hstep, List.getElem?_cons_succ]
          exact hout
        · have hout := hres.2.2 (by omega) h2
          rw [List.take_succ_cons, runCalls_cons _ _ counts c cs, hstep,
            List.getElem?_cons_succ, runCalls_cons _ _ counts c (cs.take k), hstep]
          exact hout
    · -- the counter is exhausted for the current call
      have hge : N ≤ counts pre.length := by omega
      by_cases hresp : 0 < rule.responses.length
      · -- the rule answers with a text response
        cases k with
        | zero =>
          have hgc : rule.pattern c.input = some gs := hgs
          have hstep := ruleRespond_at_text markov pre suf rule counts c.input c.r c.tcid gs tc N
            hin hpre hgc htc hmax hge hresp
          refine ⟨fun h1 => ?_, fun h1 h2 => ?_, fun h1 h2 => ?_⟩
          · omega
          · rw [runCalls_cons, hstep]
            simp only [List.getElem?_cons_zero]
            rfl
          · rw [h2] at hresp
            simp at hresp
        | succ k =>
          obtain ⟨g0, hg0⟩ := Option.isSome_iff_exists.mp hsome
          have hstep := ruleRespond_at_text markov pre suf rule counts c.input c.r c.tcid g0 tc N
            hin hpre hg0 htc hmax hge hresp
          have hk2 : k < cs.length := by simpa using hk
          have hgs2 : rule.pattern (cs.get ⟨k, hk2⟩).input = some gs := hgs
          have hres := ih counts hle hall2 k hk2 gs hgs2
          refine ⟨fun h1 => ?_, fun h1 h2 => ?_, fun h1 h2 => ?_⟩
          · omega
          · have hout := hres.2.1 (by omega) h2
            rw [runCalls_cons, hstep, List.getElem?_cons_succ]
            exact hout
          · have hout := hres.2.2 (by omega) h2
            rw [List.take_succ_cons, runCalls_cons _ _ counts c cs, hstep,
              List.getElem?_cons_succ, runCalls_cons _ _ counts c (cs.take k), hstep]
            exact hout
      · -- the rule has no text responses: it is skipped
        have hresp0 : rule.responses = [] := by
          cases hr : rule.responses with
          | nil => rfl
          | cons a l => rw [hr] at hresp; simp at hresp
        cases k with
        | zero =>
          have hgc : rule.pattern c.input = some gs := hgs
          have hstep := ruleRespond_at_skip markov pre suf rule counts c.input c.r c.tcid gs tc N
            hin hpre hgc htc hmax hge hresp0
          refine ⟨fun h1 => ?_, fun h1 h2 => ?_, fun h1 h2 => ?_⟩
          · omega
          · rw [hresp0] at h2
            simp at h2
          · rw [runCalls_cons, hstep]
            simp only [List.getElem?_cons_zero, List.take_zero, runCalls_nil]
            rfl
        | succ k =>
          obtain ⟨g0, hg0⟩ := Option.isSome_iff_exists.mp hsome
          have hstep := ruleRespond_at_skip markov pre suf rule counts c.input c.r c.tcid g0 tc N
            hin hpre hg0 htc hmax hge hresp0
          have hcnt : (respondFrom markov c.input c.r c.tcid counts (pre.length + 1) suf).2
              pre.length = counts pre.length :=
            respondFrom_counts_eq_of_lt markov c.input c.r c.tcid suf (pre.length + 1) counts
              pre.length (by omega)
          have hle2 : (respondFrom markov c.input c.r c.tcid counts (pre.length + 1) suf).2
              pre.length ≤ N := by rw [hcnt]; exact hle
          have hk2 : k < cs.length := by simpa using hk
          have hgs2 : rule.pattern (cs.get ⟨k, hk2⟩).input = some gs := hgs
          have hres := ih (respondFrom markov c.input c.r c.tcid counts (pre.length + 1) suf).2
            hle2 hall2 k hk2 gs hgs2
          simp only [hcnt] at hres
          refine ⟨fun h1 => ?_, fun h1 h2 => ?_, fun h1 h2 => ?_⟩
          · omega
          · have hout := hres.2.1 (by omega) h2
            rw [runCalls_cons, hstep, List.getElem?_cons_succ]
            exact hout
          · have hout := hres.2.2 (by omega) h2
            rw [List.take_succ_cons, runCalls_cons _ _ counts c cs, hstep,
              List.getElem?_cons_succ, runCalls_cons _ _ counts c (cs.take k), hstep]
            exact hout

/-- C2: for a rule carrying a tool-call template with max_calls = N, over
any sequence of `Respond` calls on a fresh responder whose inputs all
match that rule first (no earlier rule matches), the first N calls return
the tool-call response, incrementing the per-rule counter each time;
every later call returns a text response expanded from the rule template
selected by the rng draw when the rule has text responses, and otherwise
skips the rule, the result being that of continuing the match from the
next rule in order. -/
theorem ruleResponder_maxCalls (markov : Option MarkovOracle) (pre suf : List Rule)
    (rule : Rule) (tc : ToolCallConfig) (N : Nat) (calls : List Call)
    (htc : rule.toolCall = some tc) (hmax : rule.maxCalls = some N)
    (hcalls : ∀ c ∈ calls, c.input ≠ "" ∧ (rule.pattern c.input).isSome = true ∧
      ∀ p ∈ pre, p.pattern c.input = none) :
    ∀ (k : Nat) (hk : k < calls.length) (gs : List String),
      rule.pattern (calls.get ⟨k, hk⟩).input = some gs →
      ((k < N →
        (runCalls (pre ++ rule :: suf) markov (fun _ => 0) calls).1[k]? =
          some (Except.ok (toolCallResponse (calls.get ⟨k, hk⟩).tcid tc gs
            (calls.get ⟨k, hk⟩).input))) ∧
        (N ≤ k → 0 < rule.responses.length →
          (runCalls (pre ++ rule :: suf) markov (fun _ => 0) calls).1[k]? =
            some (Except.ok (textResponse rule gs (calls.get ⟨k, hk⟩).input
              (calls.get ⟨k, hk⟩).r markov))) ∧
        (N ≤ k → rule.responses = [] →
          (runCalls (pre ++ rule :: suf) markov (fun _ => 0) calls).1[k]? =
            some (fallbackWrap markov
              (respondFrom markov (calls.get ⟨k, hk⟩).input (calls.get ⟨k, hk⟩).r
                (calls.get ⟨k, hk⟩).tcid
                (runCalls (pre ++ rule :: suf) markov (fun _ => 0) (calls.take k)).2
                (pre.length + 1) suf).1))) := by
  intro k hk gs hgs
  have h := runCalls_spec markov pre suf rule tc N htc hmax calls (fun _ => 0)
    (Nat.zero_le N) hcalls k hk gs hgs
  exact ⟨fun h1 => h.1 (show (0 : Nat) + k < N by omega),
    fun h1 h2 => h.2.1 (show N ≤ (0 : Nat) + k by omega) h2,
    fun h1 h2 => h.2.2 (show N ≤ (0 : Nat) + k by omega) h2⟩

/-- Concrete tool-call template used by the C2 witness. -/
def wTC : ToolCallConfig :=
  { name := "get_weather", arguments := [("city", ArgValue.str "$1")] }

/-- Concrete rule with max_calls 1, a tool call and one text response,
used by the C2 witness. -/
def wRule : Rule :=
  { pattern := fun s => if s = "hi" then some ["hi"] else none
    responses := ["done"]
    toolCall := some wTC
    maxCalls := some 1 }

/-- Two concrete calls used by the C2 witness. -/
def wCalls : List Call :=
  [{ input := "hi", r := 0, tcid := "call_a" }, { input := "hi", r := 1, tcid := "call_b" }]

/-- Witness for C2: on a one-rule responder with max_calls 1, the first
call returns the tool call and the second returns the text response. -/
theorem ruleResponder_maxCalls_witness :
    (runCalls [wRule] none (fun _ => 0) wCalls).1[0]? =
        some (Except.ok (toolCallResponse "call_a" wTC ["hi"] "hi")) ∧
      (runCalls [wRule] none (fun _ => 0) wCalls).1[1]? =
        some (Except.ok (textResponse wRule ["hi"] "hi" 1 none)) := by
  have h := ruleResponder_maxCalls none [] [] wRule wTC 1 wCalls rfl rfl
    (by
      intro c hc
      simp only [wCalls, List.mem_cons, List.not_mem_nil, or_false] at hc
      rcases hc with h | h <;> subst h <;>
        exact ⟨by decide, by decide, fun p hp => absurd hp (List.not_mem_nil p)⟩)
  exact ⟨(h 0 (by decide) ["hi"] (by decide)).1 (by decide),
    (h 1 (by decide) ["hi"] (by decide)).2.1 (by decide) (by decide)⟩

end Llmock
